import Mathlib

/-!
Shallow embedding of the ISOMAP core of `src/part3_isomap/isomap.py`.

Modelling conventions:
- Machine floats are modelled by the rationals; the float value `inf`
  used as the no-edge sentinel is modelled by `⊤` in `WithTop ℚ`.
- `np.sqrt` is an external numerical routine applied pointwise; it is
  modelled by an abstract parameter `sqrtF : ℚ → ℚ` (assumptions such as
  `sqrtF 0 = 0` are stated as hypotheses where a statement needs them).
- `np.linalg.eigh` is an external eigensolver; it is modelled by an
  abstract parameter `eighF` returning the pair eigenvalues/eigenvectors,
  exactly like the library call.
- `np.argsort` with its default sort kind is unstable above the numpy
  insertion-sort cutoff, so the program leaves the order of tied entries
  unspecified; argsort is modelled as the stable sort of the indices by
  value with ties broken by index, and every general statement proved
  below is either invariant under the tie order or carries a no-ties
  hypothesis under which any correct sort of the row produces the same
  order; the concrete counterexample arrays are below the cutoff, where
  numpy runs stable insertion sort.
- Matrices are total functions `Fin n → Fin n → _`; the pipeline is pure,
  mutation of a freshly allocated array becomes function definition.
-/

/-- Embedding of `pairwise_distances` from the source: squared norms, the identity
`d2 i j = nrm i + nrm j - 2 dot i j`, elementwise clamp at `0`
(`np.maximum(D2, 0.0)`), then the external square root applied pointwise. -/
def pairwise_distances {n d : ℕ} (sqrtF : ℚ → ℚ) (X : Fin n → Fin d → ℚ) :
    Fin n → Fin n → ℚ :=
  fun i j =>
    sqrtF (max ((∑ t, X i t * X i t) + (∑ t, X j t * X j t) - 2 * ∑ t, X i t * X j t) 0)

/-- Comparison of indices by row value, ties broken by the original index:
the order realised by a stable argsort of `f`. -/
def keyLE {n : ℕ} (f : Fin n → ℚ) (a b : Fin n) : Prop :=
  f a < f b ∨ (f a = f b ∧ a ≤ b)

instance keyLE.decRel {n : ℕ} (f : Fin n → ℚ) : DecidableRel (keyLE f) := fun a b => by
  unfold keyLE; infer_instance

/-- Model of `np.argsort f`: the indices `0..n-1` sorted by value, ties
broken by index.  The program does not fix the order of tied entries
(default unstable sort above the numpy insertion-sort cutoff), so the
statements below use this model only where the tie order is irrelevant,
excluded by hypothesis, or the array is small enough for numpy to sort
stably. -/
def argsort {n : ℕ} (f : Fin n → ℚ) : List (Fin n) :=
  (List.finRange n).insertionSort (keyLE f)

/-- The slice `idx[1 : n_neighbors + 1]` of the source k-NN loop: positions
`1..n_neighbors` of the argsort of row `i`. -/
def knnSelect {n : ℕ} (D : Fin n → Fin n → ℚ) (i : Fin n) (n_neighbors : ℕ) :
    List (Fin n) :=
  ((argsort (D i)).drop 1).take n_neighbors

/-- The graph filled by `build_neighborhood_graph` before the final
symmetrisation `G = np.minimum(G, G.T)`: initialised to `inf` with zero
diagonal, then row `i` receives the radius edges (radius mode) or the
`idx[1:n_neighbors+1]` edges (k-NN mode). -/
def directedGraph {n : ℕ} (D : Fin n → Fin n → ℚ) (n_neighbors : ℕ)
    (radius : Option ℚ) : Fin n → Fin n → WithTop ℚ :=
  fun i j =>
    match radius with
    | some r =>
        if i ≠ j ∧ D i j ≤ r then (D i j : WithTop ℚ)
        else if i = j then 0 else ⊤
    | none =>
        if j ∈ knnSelect D i n_neighbors then (D i j : WithTop ℚ)
        else if i = j then 0 else ⊤

/-- Embedding of `build_neighborhood_graph` from the source: the directed fill followed
by `G = np.minimum(G, G.T)`. -/
def build_neighborhood_graph {n : ℕ} (D : Fin n → Fin n → ℚ) (n_neighbors : ℕ)
    (radius : Option ℚ) : Fin n → Fin n → WithTop ℚ :=
  fun i j =>
    min (directedGraph D n_neighbors radius i j) (directedGraph D n_neighbors radius j i)

/-- The ascending list of finite-weight neighbours of `i` not yet visited:
`np.where(G[i] < INF)` (ascending indices) filtered by the `j not in vistos`
test of the source loop. -/
def newFrontier {n : ℕ} (G : Fin n → Fin n → WithTop ℚ) (vis : Finset (Fin n))
    (i : Fin n) : List (Fin n) :=
  (List.finRange n).filter (fun j => G i j < ⊤ && j ∉ vis)

lemma newFrontier_nodup {n : ℕ} (G : Fin n → Fin n → WithTop ℚ) (vis : Finset (Fin n))
    (i : Fin n) : (newFrontier G vis i).Nodup :=
  (List.nodup_finRange n).filter _

lemma newFrontier_not_mem_vis {n : ℕ} (G : Fin n → Fin n → WithTop ℚ)
    (vis : Finset (Fin n)) (i : Fin n) (j : Fin n) (hj : j ∈ newFrontier G vis i) :
    j ∉ vis := by
  have := List.of_mem_filter hj
  simp at this
  exact this.2

lemma dfs_measure {n : ℕ} (G : Fin n → Fin n → WithTop ℚ) (vis : Finset (Fin n))
    (i : Fin n) (rest : List (Fin n)) :
    2 * (n - (vis ∪ (newFrontier G vis i).toFinset).card)
      + ((newFrontier G vis i).reverse ++ rest).length
    < 2 * (n - vis.card) + (i :: rest).length := by
  have h1 : (newFrontier G vis i).toFinset.card = (newFrontier G vis i).length := by
    rw [List.toFinset_card_of_nodup (newFrontier_nodup G vis i)]
  have hdis : Disjoint vis (newFrontier G vis i).toFinset := by
    rw [Finset.disjoint_right]
    intro j hj
    exact newFrontier_not_mem_vis G vis i j (List.mem_toFinset.mp hj)
  have h2 : (vis ∪ (newFrontier G vis i).toFinset).card
      = vis.card + (newFrontier G vis i).length := by
    rw [Finset.card_union_of_disjoint hdis, h1]
  have h3 : (vis ∪ (newFrontier G vis i).toFinset).card ≤ n := by
    have := Finset.card_le_univ (vis ∪ (newFrontier G vis i).toFinset)
    simpa using this
  simp only [List.length_append, List.length_reverse, List.length_cons, h2]
  omega

/-- The `while pila:` loop of `check_connectivity`: pop a node, push its
unvisited finite-weight neighbours (the source pushes them in ascending
order at the end of the stack and pops from the end, hence the reversed
block at the head of our stack list). -/
def dfsLoop {n : ℕ} (G : Fin n → Fin n → WithTop ℚ) :
    Finset (Fin n) → List (Fin n) → Finset (Fin n)
  | vis, [] => vis
  | vis, i :: rest =>
      dfsLoop G (vis ∪ (newFrontier G vis i).toFinset)
        ((newFrontier G vis i).reverse ++ rest)
termination_by vis stack => 2 * (n - vis.card) + stack.length
decreasing_by exact dfs_measure G vis i rest

/-- Embedding of `check_connectivity` from the source: depth-first search from node `0`
with `vistos = {0}`, `pila = [0]`.  The Python function returns the Boolean
`len(vistos) == n` and reports the count `len(vistos)` in its log message;
we model the returned Boolean together with the reported count as a pair. -/
def check_connectivity {n : ℕ} (G : Fin (n + 1) → Fin (n + 1) → WithTop ℚ) :
    Bool × ℕ :=
  (decide ((dfsLoop G {0} [0]).card = n + 1), (dfsLoop G {0} [0]).card)

/-- One step `D = np.minimum(D, D[:, [k]] + D[[k], :])` of the source
Floyd-Warshall loop. -/
def relax {n : ℕ} (Dm : Fin n → Fin n → WithTop ℚ) (k : Fin n) :
    Fin n → Fin n → WithTop ℚ :=
  fun i j => min (Dm i j) (Dm i k + Dm k j)

/-- Embedding of `floyd_warshall` from the source: start from a copy of `G` and relax
through every intermediate node `k` in `range(n)`. -/
def floyd_warshall {n : ℕ} (G : Fin n → Fin n → WithTop ℚ) :
    Fin n → Fin n → WithTop ℚ :=
  (List.finRange n).foldl relax G

/-- Total weight of the walk `i, v₁, …, vₘ, j` in `G`: the sum of the
successive entries of `G`; an entry `⊤` (a missing edge) makes the whole
walk weight `⊤`. -/
def walkWeight {n : ℕ} (G : Fin n → Fin n → WithTop ℚ) :
    Fin n → Fin n → List (Fin n) → WithTop ℚ
  | i, j, [] => G i j
  | i, j, v :: w => G i v + walkWeight G v j w

/-- The edge relation implied by the weight matrix: a finite entry. -/
def edgeRel {n : ℕ} (G : Fin n → Fin n → WithTop ℚ) (i j : Fin n) : Prop :=
  G i j ≠ ⊤

/-- The Gram matrix of `classical_mds`: `B = -1/2 * J * D2 * J` with
`J = I - ones/n` and `D2` the elementwise square of the input.  The
arithmetic is carried out in `WithTop ℚ`; on finite inputs it coincides
with rational arithmetic (every claim below concerns finite inputs, the
float inf/NaN propagation of a disconnected input reaches the abstract
eigensolver unspecified, as in the source). -/
def gramB {n : ℕ} (Dg : Fin n → Fin n → WithTop ℚ) : Fin n → Fin n → WithTop ℚ :=
  fun a b =>
    ((-(1 : ℚ) / 2 : ℚ) : WithTop ℚ) *
      ∑ c, ∑ e,
        (((if a = c then (1 : ℚ) else 0) - 1 / (n : ℚ) : ℚ) : WithTop ℚ)
          * (Dg c e * Dg c e)
          * (((if e = b then (1 : ℚ) else 0) - 1 / (n : ℚ) : ℚ) : WithTop ℚ)

/-- The reordering `idx = np.argsort(vals)[::-1]` of `classical_mds`: the descending
reordering of the eigenvalue indices. -/
def mdsIdx {n : ℕ} (vals : Fin n → ℚ) : List (Fin n) :=
  (argsort vals).reverse

/-- Embedding of `classical_mds` from the source: eigendecomposition of the Gram matrix
through the abstract eigensolver, eigenvalues reordered descending, the
top `n_components` eigenvalues clamped at `0`, square-rooted, and used to
scale the corresponding eigenvector columns.  Returns the embedding as the
list of its columns together with the full reordered spectrum. -/
def classical_mds {n : ℕ}
    (eighF : (Fin n → Fin n → WithTop ℚ) → (Fin n → ℚ) × (Fin n → Fin n → ℚ))
    (sqrtF : ℚ → ℚ) (Dg : Fin n → Fin n → WithTop ℚ) (n_components : ℕ) :
    List (Fin n → ℚ) × List ℚ :=
  let vv := eighF (gramB Dg)
  let idx := mdsIdx vv.1
  (((idx.take n_components).map (fun c => fun r => vv.2 r c * sqrtF (max (vv.1 c) 0))),
    idx.map vv.1)

/-- Embedding of `isomap` from the source: the strict pipeline
distances → neighbourhood graph → geodesics → classical MDS.  The source
also calls `check_connectivity` on the graph between the stages; that call
is diagnostic only (its value is discarded), so it does not appear in the
data flow. -/
def isomap {n d : ℕ}
    (eighF : (Fin n → Fin n → WithTop ℚ) → (Fin n → ℚ) × (Fin n → Fin n → ℚ))
    (sqrtF : ℚ → ℚ) (X : Fin n → Fin d → ℚ)
    (n_neighbors : ℕ) (n_components : ℕ) (radius : Option ℚ) :
    List (Fin n → ℚ) × List ℚ :=
  classical_mds eighF sqrtF
    (floyd_warshall (build_neighborhood_graph (pairwise_distances sqrtF X) n_neighbors radius))
    n_components

/-- Strict version of `keyLE`: strictly nearer in value, or equal value and
strictly smaller index.  `keyLT (D i) x j` says a stable argsort of row `i`
places `x` before `j`. -/
def keyLT {n : ℕ} (f : Fin n → ℚ) (a b : Fin n) : Prop :=
  f a < f b ∨ (f a = f b ∧ a < b)

instance keyLT.decRel {n : ℕ} (f : Fin n → ℚ) : DecidableRel (keyLT f) := fun a b => by
  unfold keyLT; infer_instance

/-- A concrete two-node graph with no edges: two singleton components. -/
def fwG2 : Fin 2 → Fin 2 → WithTop ℚ := ![![0, ⊤], ![⊤, 0]]

/-- The all-zero distance matrix on two samples (two coincident points). -/
def Dzero2 : Fin 2 → Fin 2 → ℚ := fun _ _ => 0

/-- The number of samples other than `i` that a stable argsort of row `i`
places strictly before `j`: the rank of `j` among the candidate
neighbours of `i` (distance first, index on ties). -/
def nearerCount {n : ℕ} (D : Fin n → Fin n → ℚ) (i j : Fin n) : ℕ :=
  (Finset.univ.filter (fun x => x ≠ i ∧ keyLT (D i) x j)).card

/-- The number of samples other than `i` strictly nearer to `i` than `j`:
the rank of `j` among the candidate neighbours of `i` by distance alone.
When the off-diagonal distances of a row are pairwise distinct this rank
needs no tie-breaking and any correct sort of the row realises it. -/
def strictNearerCount {n : ℕ} (D : Fin n → Fin n → ℚ) (i j : Fin n) : ℕ :=
  (Finset.univ.filter (fun x => x ≠ i ∧ D i x < D i j)).card

/-- A Euclidean distance matrix for three collinear points with samples 0
and 1 coincident (a duplicated sample): `D[0,1] = 0`. -/
def Ddup : Fin 3 → Fin 3 → ℚ := ![![0, 0, 5], ![0, 0, 5], ![5, 5, 0]]

/-- The distance matrix of two distinct points at distance 1. -/
def Done2 : Fin 2 → Fin 2 → ℚ := ![![0, 1], ![1, 0]]

/-- The three structural properties propagated through the relaxation
steps: non-negative entries, zero diagonal, symmetry. -/
def SymNonnegDiag {n : ℕ} (Dm : Fin n → Fin n → WithTop ℚ) : Prop :=
  (∀ i j, 0 ≤ Dm i j) ∧ (∀ i, Dm i i = 0) ∧ (∀ i j, Dm i j = Dm j i)

/-- A one-sample, one-feature all-zero input matrix. -/
def Xzero1 : Fin 1 → Fin 1 → ℚ := fun _ _ => 0

/-- A trivial concrete eigensolver on one node: eigenvalue `0`,
eigenvector matrix `0`. -/
def eighEx1 : (Fin 1 → Fin 1 → WithTop ℚ) → (Fin 1 → ℚ) × (Fin 1 → Fin 1 → ℚ) :=
  fun _ => (fun _ => 0, fun _ _ => 0)

lemma keyLE_refl {n : ℕ} (f : Fin n → ℚ) (a : Fin n) : keyLE f a a :=
  Or.inr ⟨rfl, le_refl a⟩

lemma keyLE_total {n : ℕ} (f : Fin n → ℚ) (a b : Fin n) : keyLE f a b ∨ keyLE f b a := by
  rcases lt_trichotomy (f a) (f b) with h | h | h
  · exact Or.inl (Or.inl h)
  · rcases le_total a b with h2 | h2
    · exact Or.inl (Or.inr ⟨h, h2⟩)
    · exact Or.inr (Or.inr ⟨h.symm, h2⟩)
  · exact Or.inr (Or.inl h)

lemma keyLE_trans {n : ℕ} (f : Fin n → ℚ) (a b c : Fin n)
    (hab : keyLE f a b) (hbc : keyLE f b c) : keyLE f a c := by
  rcases hab with h1 | ⟨h1, h1i⟩ <;> rcases hbc with h2 | ⟨h2, h2i⟩
  · exact Or.inl (h1.trans h2)
  · exact Or.inl (h2 ▸ h1)
  · exact Or.inl (h1 ▸ h2)
  · exact Or.inr ⟨h1.trans h2, h1i.trans h2i⟩

lemma keyLE_antisymm {n : ℕ} (f : Fin n → ℚ) (a b : Fin n)
    (hab : keyLE f a b) (hba : keyLE f b a) : a = b := by
  rcases hab with h1 | ⟨h1, h1i⟩ <;> rcases hba with h2 | ⟨h2, h2i⟩
  · exact absurd (h1.trans h2) (lt_irrefl _)
  · exact absurd h1 (h2 ▸ lt_irrefl _)
  · exact absurd h2 (h1 ▸ lt_irrefl _)
  · exact le_antisymm h1i h2i

instance keyLE.isTotal {n : ℕ} (f : Fin n → ℚ) : IsTotal (Fin n) (keyLE f) :=
  ⟨keyLE_total f⟩

instance keyLE.isTrans {n : ℕ} (f : Fin n → ℚ) : IsTrans (Fin n) (keyLE f) :=
  ⟨keyLE_trans f⟩

lemma keyLT_iff {n : ℕ} (f : Fin n → ℚ) (a b : Fin n) :
    keyLT f a b ↔ keyLE f a b ∧ a ≠ b := by
  constructor
  · rintro (h | ⟨h, hi⟩)
    · exact ⟨Or.inl h, fun he => absurd h (he ▸ lt_irrefl _)⟩
    · exact ⟨Or.inr ⟨h, le_of_lt hi⟩, fun he => absurd hi (he ▸ lt_irrefl _)⟩
  · rintro ⟨h | ⟨h, hi⟩, hne⟩
    · exact Or.inl h
    · exact Or.inr ⟨h, lt_of_le_of_ne hi (by simpa using hne)⟩

lemma keyLT_irrefl {n : ℕ} (f : Fin n → ℚ) (a : Fin n) : ¬ keyLT f a a := by
  rintro (h | ⟨_, h⟩) <;> exact absurd h (lt_irrefl _)

lemma argsort_sorted {n : ℕ} (f : Fin n → ℚ) : List.Sorted (keyLE f) (argsort f) :=
  List.sorted_insertionSort _ _

lemma argsort_perm {n : ℕ} (f : Fin n → ℚ) :
    List.Perm (argsort f) (List.finRange n) :=
  List.perm_insertionSort _ _

lemma argsort_nodup {n : ℕ} (f : Fin n → ℚ) : (argsort f).Nodup :=
  (argsort_perm f).nodup_iff.mpr (List.nodup_finRange n)

lemma argsort_mem {n : ℕ} (f : Fin n → ℚ) (x : Fin n) : x ∈ argsort f :=
  (argsort_perm f).mem_iff.mpr (List.mem_finRange x)

lemma argsort_length {n : ℕ} (f : Fin n → ℚ) : (argsort f).length = n :=
  (argsort_perm f).length_eq.trans (List.length_finRange n)

/-- Position characterisation in a `keyLE`-sorted duplicate-free list: an
element lies among the first `m` entries exactly when fewer than `m`
entries of the list are `keyLT`-before it. -/
lemma mem_take_iff_countP {n : ℕ} (f : Fin n → ℚ) (s : List (Fin n))
    (hs : List.Sorted (keyLE f) s) (hnd : s.Nodup) (m : ℕ) (j : Fin n) (hj : j ∈ s) :
    j ∈ s.take m ↔ s.countP (fun x => decide (keyLT f x j)) < m := by
  have hsplit : s.countP (fun x => decide (keyLT f x j))
      = (s.take m).countP (fun x => decide (keyLT f x j))
        + (s.drop m).countP (fun x => decide (keyLT f x j)) := by
    conv_lhs => rw [← List.take_append_drop m s]
    exact List.countP_append _ _ _
  constructor
  · intro hjt
    have hdrop : (s.drop m).countP (fun x => decide (keyLT f x j)) = 0 := by
      rw [List.countP_eq_zero]
      intro x hx
      simp only [decide_eq_true_eq]
      intro hlt
      have hle : keyLE f j x := hs.rel_of_mem_take_of_mem_drop hjt hx
      rcases (keyLT_iff f x j).mp hlt with ⟨hxj, hne⟩
      exact hne (keyLE_antisymm f _ _ hxj hle)
    have hndt : (s.take m).Nodup := hnd.sublist (List.take_sublist m s)
    have hmono : (s.take m).countP (fun x => decide (keyLT f x j))
        ≤ (s.take m).countP (fun x => decide ¬(decide (x = j) = true)) := by
      apply List.countP_mono_left
      intro x _ hx
      simp only [decide_eq_true_eq] at hx
      simp only [decide_eq_true_eq]
      intro he
      exact keyLT_irrefl f j (he ▸ hx)
    have hlen : (s.take m).length
        = (s.take m).countP (fun x => decide (x = j))
          + (s.take m).countP (fun x => decide ¬(decide (x = j) = true)) :=
      (s.take m).length_eq_countP_add_countP _
    have hpos : 0 < (s.take m).countP (fun x => decide (x = j)) :=
      List.countP_pos_iff.mpr ⟨j, hjt, by simp⟩
    have htakelen : (s.take m).length ≤ m := by
      rw [List.length_take]; exact Nat.min_le_left _ _
    omega
  · intro hcount
    by_contra hnt
    have hjd : j ∈ s.drop m := by
      have hj2 : j ∈ s.take m ++ s.drop m := by
        rw [List.take_append_drop]; exact hj
      rcases List.mem_append.mp hj2 with h | h
      · exact absurd h hnt
      · exact h
    have hall : ∀ x ∈ s.take m, (fun x => decide (keyLT f x j)) x = true := by
      intro x hx
      have hle : keyLE f x j := hs.rel_of_mem_take_of_mem_drop hx hjd
      have hne : x ≠ j := by
        intro he
        subst he
        have hnd2 : (s.take m ++ s.drop m).Nodup := by
          rw [List.take_append_drop]; exact hnd
        rcases List.nodup_append.mp hnd2 with ⟨_, _, hdisj⟩
        exact hdisj hx hjd
      simp only [decide_eq_true_eq]
      exact (keyLT_iff f x j).mpr ⟨hle, hne⟩
    have hfull : (s.take m).countP (fun x => decide (keyLT f x j)) = (s.take m).length :=
      List.countP_eq_length.mpr hall
    have hml : m < s.length := by
      by_contra hge
      push_neg at hge
      rw [List.drop_eq_nil_of_le hge] at hjd
      cases hjd
    have hlen : (s.take m).length = m := by
      rw [List.length_take]
      omega
    omega

lemma mem_first_split {α : Type} [DecidableEq α] (a : α) (l : List α) (h : a ∈ l) :
    ∃ s t, l = s ++ a :: t ∧ a ∉ s := by
  induction l with
  | nil => cases h
  | cons b l ih =>
    by_cases hb : b = a
    · exact ⟨[], l, by simp [hb], by simp⟩
    · have hal : a ∈ l := by
        cases List.mem_cons.mp h with
        | inl h2 => exact absurd h2.symm hb
        | inr h2 => exact h2
      rcases ih hal with ⟨s, t, hl, hns⟩
      exact ⟨b :: s, t, by simp [hl], by simp [hns, Ne.symm hb]⟩

lemma walkWeight_append {n : ℕ} (G : Fin n → Fin n → WithTop ℚ) (i j v : Fin n)
    (w1 w2 : List (Fin n)) :
    walkWeight G i j (w1 ++ v :: w2) = walkWeight G i v w1 + walkWeight G v j w2 := by
  induction w1 generalizing i with
  | nil => simp [walkWeight]
  | cons a w ih => simp [walkWeight, ih a, add_assoc]

lemma walkWeight_nonneg {n : ℕ} (G : Fin n → Fin n → WithTop ℚ)
    (hnn : ∀ i j, 0 ≤ G i j) (i j : Fin n) (w : List (Fin n)) :
    0 ≤ walkWeight G i j w := by
  induction w generalizing i with
  | nil => exact hnn i j
  | cons a w ih => exact add_nonneg (hnn i a) (ih a)

/-- All intermediate vertices of the walk satisfy `P`. -/
def WalkIn {n : ℕ} (P : Fin n → Prop) (w : List (Fin n)) : Prop := ∀ v ∈ w, P v

/-- Statement that `Dm i j` is the minimum of the `G`-walk weights from `i` to `j` over
walks whose intermediate vertices satisfy `P`: it is a lower bound and it
is attained. -/
def IsMinOver {n : ℕ} (G : Fin n → Fin n → WithTop ℚ) (P : Fin n → Prop)
    (Dm : Fin n → Fin n → WithTop ℚ) : Prop :=
  ∀ i j, (∀ w, WalkIn P w → Dm i j ≤ walkWeight G i j w)
       ∧ (∃ w, WalkIn P w ∧ Dm i j = walkWeight G i j w)

lemma isMinOver_congr {n : ℕ} (G : Fin n → Fin n → WithTop ℚ) (P Q : Fin n → Prop)
    (hPQ : ∀ v, P v ↔ Q v) (Dm : Fin n → Fin n → WithTop ℚ)
    (h : IsMinOver G P Dm) : IsMinOver G Q Dm := by
  intro i j
  refine ⟨fun w hw => (h i j).1 w (fun v hv => (hPQ v).mpr (hw v hv)), ?_⟩
  rcases (h i j).2 with ⟨w, hw, he⟩
  exact ⟨w, fun v hv => (hPQ v).mp (hw v hv), he⟩

lemma isMinOver_base {n : ℕ} (G : Fin n → Fin n → WithTop ℚ) :
    IsMinOver G (fun _ => False) G := by
  intro i j
  constructor
  · intro w hw
    match w with
    | [] => exact le_refl _
    | v :: w2 => exact absurd (hw v (List.mem_cons_self v w2)) id
  · exact ⟨[], ⟨fun v hv => absurd hv (List.not_mem_nil v), rfl⟩⟩

/-- In the relaxation step for intermediate vertex `k`, repeated visits to
`k` inside a walk can be cut away without increasing the weight (weights
are non-negative), so `Dm k j` already bounds every walk through
`P ∪ {k}`. -/
lemma relax_through_k {n : ℕ} (G : Fin n → Fin n → WithTop ℚ)
    (hnn : ∀ i j, 0 ≤ G i j) (P : Fin n → Prop)
    (Dm : Fin n → Fin n → WithTop ℚ) (h : IsMinOver G P Dm) (k j : Fin n) :
    ∀ (m : ℕ) (w : List (Fin n)), w.length ≤ m → WalkIn (fun v => P v ∨ v = k) w →
      Dm k j ≤ walkWeight G k j w := by
  intro m
  induction m with
  | zero =>
    intro w hw _
    have hnil : w = [] := List.length_eq_zero.mp (Nat.le_zero.mp hw)
    subst hnil
    exact (h k j).1 [] (fun v hv => absurd hv (List.not_mem_nil v))
  | succ m ih =>
    intro w hw hin
    by_cases hk : k ∈ w
    · rcases mem_first_split k w hk with ⟨s, t, rfl, _⟩
      rw [walkWeight_append]
      have hlt : t.length ≤ m := by
        have := hw
        simp only [List.length_append, List.length_cons] at this
        omega
      have ht : Dm k j ≤ walkWeight G k j t := by
        refine ih t hlt ?_
        intro v hv
        exact hin v (by simp [hv])
      calc Dm k j ≤ walkWeight G k j t := ht
        _ ≤ walkWeight G k k s + walkWeight G k j t :=
          le_add_of_nonneg_left (walkWeight_nonneg G hnn k k s)
    · refine (h k j).1 w ?_
      intro v hv
      rcases hin v hv with hp | he
      · exact hp
      · exact absurd (he ▸ hv) hk

lemma relax_isMinOver {n : ℕ} (G : Fin n → Fin n → WithTop ℚ)
    (hnn : ∀ i j, 0 ≤ G i j) (P : Fin n → Prop)
    (Dm : Fin n → Fin n → WithTop ℚ) (h : IsMinOver G P Dm) (k : Fin n) :
    IsMinOver G (fun v => P v ∨ v = k) (relax Dm k) := by
  intro i j
  constructor
  · intro w hw
    by_cases hk : k ∈ w
    · rcases mem_first_split k w hk with ⟨s, t, rfl, hks⟩
      rw [walkWeight_append]
      have hs : Dm i k ≤ walkWeight G i k s := by
        refine (h i k).1 s ?_
        intro v hv
        rcases hw v (by simp [hv]) with hp | he
        · exact hp
        · exact absurd (he ▸ hv) hks
      have ht : Dm k j ≤ walkWeight G k j t := by
        refine relax_through_k G hnn P Dm h k j t.length t (le_refl _) ?_
        intro v hv
        exact hw v (by simp [hv])
      calc relax Dm k i j ≤ Dm i k + Dm k j := min_le_right _ _
        _ ≤ walkWeight G i k s + walkWeight G k j t := add_le_add hs ht
    · have hP : WalkIn P w := by
        intro v hv
        rcases hw v hv with hp | he
        · exact hp
        · exact absurd (he ▸ hv) hk
      calc relax Dm k i j ≤ Dm i j := min_le_left _ _
        _ ≤ walkWeight G i j w := (h i j).1 w hP
  · rcases (h i j).2 with ⟨w0, hw0, he0⟩
    rcases (h i k).2 with ⟨w1, hw1, he1⟩
    rcases (h k j).2 with ⟨w2, hw2, he2⟩
    rcases le_total (Dm i j) (Dm i k + Dm k j) with hle | hle
    · refine ⟨w0, fun v hv => Or.inl (hw0 v hv), ?_⟩
      rw [relax, min_eq_left hle]
      exact he0
    · refine ⟨w1 ++ k :: w2, ?_, ?_⟩
      · intro v hv
        rcases List.mem_append.mp hv with hv1 | hv2
        · exact Or.inl (hw1 v hv1)
        · rcases List.mem_cons.mp hv2 with he | hv2
          · exact Or.inr he
          · exact Or.inl (hw2 v hv2)
      · rw [relax, min_eq_right hle, walkWeight_append, he1, he2]

lemma foldl_relax_isMinOver {n : ℕ} (G : Fin n → Fin n → WithTop ℚ)
    (hnn : ∀ i j, 0 ≤ G i j) :
    ∀ (l : List (Fin n)) (P : Fin n → Prop) (Dm : Fin n → Fin n → WithTop ℚ),
      IsMinOver G P Dm →
      IsMinOver G (fun v => P v ∨ v ∈ l) (l.foldl relax Dm) := by
  intro l
  induction l with
  | nil =>
    intro P Dm h
    exact isMinOver_congr G P _ (fun v => by simp) Dm h
  | cons a l2 ih =>
    intro P Dm h
    have h2 := relax_isMinOver G hnn P Dm h a
    have h3 := ih (fun v => P v ∨ v = a) (relax Dm a) h2
    refine isMinOver_congr G _ _ (fun v => ?_) _ h3
    simp [List.mem_cons, or_assoc]

/-- The entry `floyd_warshall G i j` is a lower bound on, and is attained by, the
weights of all walks from `i` to `j` in `G`. -/
lemma floyd_warshall_minOver {n : ℕ} (G : Fin n → Fin n → WithTop ℚ)
    (hnn : ∀ i j, 0 ≤ G i j) (i j : Fin n) :
    (∀ w, floyd_warshall G i j ≤ walkWeight G i j w) ∧
    (∃ w, floyd_warshall G i j = walkWeight G i j w) := by
  have h := foldl_relax_isMinOver G hnn (List.finRange n) (fun _ => False) G
    (isMinOver_base G)
  have h2 : IsMinOver G (fun _ => True) (floyd_warshall G) := by
    refine isMinOver_congr G _ _ (fun v => ?_) _ h
    simp [List.mem_finRange]
  refine ⟨fun w => (h2 i j).1 w (fun v _ => trivial), ?_⟩
  rcases (h2 i j).2 with ⟨w, _, he⟩
  exact ⟨w, he⟩

lemma walkWeight_ne_top_reach {n : ℕ} (G : Fin n → Fin n → WithTop ℚ)
    (i j : Fin n) (w : List (Fin n)) (h : walkWeight G i j w ≠ ⊤) :
    Relation.ReflTransGen (edgeRel G) i j := by
  induction w generalizing i with
  | nil => exact Relation.ReflTransGen.single h
  | cons a w ih =>
    rw [walkWeight] at h
    have h1 : G i a ≠ ⊤ := (WithTop.add_ne_top.mp h).1
    have h2 : walkWeight G a j w ≠ ⊤ := (WithTop.add_ne_top.mp h).2
    exact Relation.ReflTransGen.head h1 (ih a h2)

lemma reach_exists_walk {n : ℕ} (G : Fin n → Fin n → WithTop ℚ) (i j : Fin n)
    (h : Relation.ReflTransGen (edgeRel G) i j) :
    i = j ∨ ∃ w, walkWeight G i j w ≠ ⊤ := by
  induction h with
  | refl => exact Or.inl rfl
  | tail hab hbc ih =>
    rename_i b c
    right
    rcases ih with he | ⟨w, hw⟩
    · subst he
      exact ⟨[], hbc⟩
    · refine ⟨w ++ [b], ?_⟩
      rw [show w ++ [b] = w ++ b :: [] from rfl, walkWeight_append]
      rw [show walkWeight G b c [] = G b c from rfl]
      exact WithTop.add_ne_top.mpr ⟨hw, hbc⟩

/-- C1: for every weight matrix with non-negative entries, zero diagonal
and `⊤` for non-edges, `floyd_warshall` returns in entry `(i, j)` the
minimum total weight over all walks from `i` to `j` (it bounds every walk
from below and is attained by one), and the entry is `⊤` exactly when `j`
is not reachable from `i` along finite-weight edges; for a symmetric
matrix reachability is symmetric, so this is exactly the relation of lying
in the same connected component. -/
theorem floyd_warshall_correct {n : ℕ} (G : Fin n → Fin n → WithTop ℚ)
    (hnn : ∀ i j, 0 ≤ G i j) (hdiag : ∀ i, G i i = 0)
    (hsymm : ∀ i j, G i j = G j i) (i j : Fin n) :
    (∀ w, floyd_warshall G i j ≤ walkWeight G i j w) ∧
    (∃ w, floyd_warshall G i j = walkWeight G i j w) ∧
    (floyd_warshall G i j = ⊤ ↔ ¬ Relation.ReflTransGen (edgeRel G) i j) ∧
    (Relation.ReflTransGen (edgeRel G) i j ↔ Relation.ReflTransGen (edgeRel G) j i) := by
  obtain ⟨hlb, w0, hw0⟩ := floyd_warshall_minOver G hnn i j
  have hedgesymm : Symmetric (edgeRel G) := by
    intro a b h
    unfold edgeRel at h ⊢
    rw [hsymm b a]
    exact h
  refine ⟨hlb, ⟨w0, hw0⟩, ⟨?_, ?_⟩, ?_⟩
  · intro htop hreach
    rcases reach_exists_walk G i j hreach with he | ⟨w, hw⟩
    · subst he
      have hle : floyd_warshall G i i ≤ walkWeight G i i [] := hlb []
      rw [show walkWeight G i i [] = G i i from rfl, hdiag i, htop] at hle
      simp at hle
    · have hle := hlb w
      rw [htop] at hle
      exact hw (top_le_iff.mp hle)
  · intro hnreach
    by_contra hne
    refine hnreach (walkWeight_ne_top_reach G i j w0 ?_)
    intro hwt
    exact hne (hw0.trans hwt)
  · exact ⟨fun h => Relation.ReflTransGen.symmetric hedgesymm h,
      fun h => Relation.ReflTransGen.symmetric hedgesymm h⟩

/-- Witness for C1: the Floyd-Warshall characterisation instantiated at the
concrete graph `fwG2` and the pair `(0, 1)`, the hypotheses checked by
evaluation. -/
theorem floyd_warshall_correct_witness :
    (∀ w, floyd_warshall fwG2 0 1 ≤ walkWeight fwG2 0 1 w) ∧
    (∃ w, floyd_warshall fwG2 0 1 = walkWeight fwG2 0 1 w) ∧
    (floyd_warshall fwG2 0 1 = ⊤ ↔ ¬ Relation.ReflTransGen (edgeRel fwG2) 0 1) ∧
    (Relation.ReflTransGen (edgeRel fwG2) 0 1 ↔ Relation.ReflTransGen (edgeRel fwG2) 1 0) :=
  floyd_warshall_correct fwG2 (by decide) (by decide) (by decide) 0 1

lemma argsort_cons {n : ℕ} (f : Fin n → ℚ) (i : Fin n) :
    ∃ h t, argsort f = h :: t := by
  cases hq : argsort f with
  | nil =>
    exfalso
    have := argsort_length f
    rw [hq] at this
    exact absurd this.symm (Nat.pos_iff_ne_zero.mp i.pos)
  | cons h t => exact ⟨h, t, rfl⟩

lemma argsort_head_min {n : ℕ} (f : Fin n → ℚ) (h : Fin n) (t : List (Fin n))
    (hs : argsort f = h :: t) (x : Fin n) : keyLE f h x := by
  have hsort := argsort_sorted f
  rw [hs] at hsort
  have hmem := argsort_mem f x
  rw [hs] at hmem
  rcases List.mem_cons.mp hmem with he | hx
  · exact he ▸ keyLE_refl f h
  · exact List.rel_of_sorted_cons hsort x hx

lemma argsort_tail_mem {n : ℕ} (f : Fin n → ℚ) (h : Fin n) (t : List (Fin n))
    (hs : argsort f = h :: t) (j : Fin n) : j ∈ t ↔ j ≠ h := by
  have hnd := argsort_nodup f
  rw [hs] at hnd
  have hmem := argsort_mem f j
  rw [hs] at hmem
  constructor
  · intro hjt he
    subst he
    exact (List.nodup_cons.mp hnd).1 hjt
  · intro hne
    rcases List.mem_cons.mp hmem with he | h2
    · exact absurd he hne
    · exact h2

/-- If the head of the stable argsort of row `i` is some `j ≠ i`, then (the
row having a zero diagonal and non-negative entries) `j` is a duplicate of
`i` at a smaller index. -/
lemma argsort_head_ne {n : ℕ} (D : Fin n → Fin n → ℚ) (i : Fin n)
    (hdiag : D i i = 0) (hnn : ∀ j, 0 ≤ D i j) (h : Fin n) (t : List (Fin n))
    (hs : argsort (D i) = h :: t) (hne : h ≠ i) : D i h = 0 ∧ h < i := by
  rcases argsort_head_min (D i) h t hs i with hlt | ⟨heq, hle⟩
  · rw [hdiag] at hlt
    exact absurd hlt (not_lt_of_le (hnn h))
  · rw [hdiag] at heq
    exact ⟨heq, lt_of_le_of_ne hle hne⟩

/-- With a positive off-diagonal row, the self index is the head of the
stable argsort of the row (the unique minimum). -/
lemma argsort_head_self {n : ℕ} (D : Fin n → Fin n → ℚ) (i : Fin n)
    (hdiag : D i i = 0) (hpos : ∀ j, j ≠ i → 0 < D i j) :
    ∃ t, argsort (D i) = i :: t := by
  obtain ⟨h, t, hs⟩ := argsort_cons (D i) i
  by_cases hne : h = i
  · exact ⟨t, hne ▸ hs⟩
  · exfalso
    have := argsort_head_ne D i hdiag
      (fun j => by
        by_cases hj : j = i
        · rw [hj, hdiag]
        · exact le_of_lt (hpos j hj)) h t hs hne
    exact absurd this.1 (ne_of_gt (hpos h hne))

lemma knnSelect_of_large {n : ℕ} (D : Fin n → Fin n → ℚ) (i : Fin n) (k : ℕ)
    (hk : n - 1 ≤ k) : knnSelect D i k = (argsort (D i)).drop 1 := by
  unfold knnSelect
  apply List.take_of_length_le
  rw [List.length_drop, argsort_length]
  exact hk

lemma foldl_relax_of_triangle {n : ℕ} (Gm : Fin n → Fin n → WithTop ℚ)
    (htri : ∀ i k j, Gm i j ≤ Gm i k + Gm k j) :
    ∀ l : List (Fin n), l.foldl relax Gm = Gm := by
  intro l
  induction l with
  | nil => rfl
  | cons a l2 ih =>
    have hra : relax Gm a = Gm := by
      funext i j
      exact min_eq_left (htri i a j)
    rw [List.foldl_cons, hra, ih]

/-- A matrix satisfying the triangle inequality is a fixed point of
`floyd_warshall`: no multi-edge walk improves on the direct entry. -/
lemma floyd_warshall_of_triangle {n : ℕ} (Gm : Fin n → Fin n → WithTop ℚ)
    (htri : ∀ i k j, Gm i j ≤ Gm i k + Gm k j) : floyd_warshall Gm = Gm :=
  foldl_relax_of_triangle Gm htri _

/-- C3 core, graph part: with `n_neighbors ≥ N - 1` every k-NN row selects
every index except the head of its argsort, and after symmetrisation the
graph coincides with the distance matrix on every pair. -/
lemma build_full_eq_D {n : ℕ} (D : Fin n → Fin n → ℚ)
    (hsymm : ∀ i j, D i j = D j i) (hdiag : ∀ i, D i i = 0)
    (hnn : ∀ i j, 0 ≤ D i j) (k : ℕ) (hk : n - 1 ≤ k) :
    ∀ i j, build_neighborhood_graph D k none i j = (D i j : WithTop ℚ) := by
  have hdir : ∀ i j : Fin n, directedGraph D k none i j = (D i j : WithTop ℚ)
      ∨ (directedGraph D k none i j = ⊤ ∧ i ≠ j ∧ D i j = 0 ∧ j < i) := by
    intro i j
    obtain ⟨h, t, hs⟩ := argsort_cons (D i) i
    have hsel : knnSelect D i k = t := by
      rw [knnSelect_of_large D i k hk, hs]
      rfl
    by_cases hij : i = j
    · subst hij
      left
      show directedGraph D k none i i = ((D i i : ℚ) : WithTop ℚ)
      unfold directedGraph
      by_cases hin : i ∈ knnSelect D i k
      · simp [hin]
      · simp [hin, hdiag i]
    · by_cases hjt : j ∈ t
      · left
        unfold directedGraph
        simp [hsel, hjt]
      · right
        have hjh : j = h := by
          by_contra hne
          exact hjt ((argsort_tail_mem (D i) h t hs j).mpr hne)
        subst hjh
        have hhead := argsort_head_ne D i (hdiag i) (fun x => hnn i x) j t hs
          (fun he => hij he.symm)
        refine ⟨?_, hij, hhead.1, hhead.2⟩
        unfold directedGraph
        simp [hsel, hjt, hij]
  intro i j
  unfold build_neighborhood_graph
  rcases hdir i j with hij | ⟨hij, hne, hd0, hji⟩
  · rcases hdir j i with hji | ⟨hji, _, _, hij2⟩
    · rw [hij, hji, hsymm j i, min_self]
    · rw [hij, hji, min_eq_left le_top]
  · rcases hdir j i with hji2 | ⟨_, _, _, hij2⟩
    · rw [hij, hji2, min_eq_right le_top, hsymm j i]
    · exact absurd (hji.trans hij2) (lt_irrefl _)

/-- C3: if `n_neighbors ≥ N - 1` in k-NN mode, the neighbourhood graph
equals the raw distance matrix (every off-diagonal pair connected with
weight `D i j`, diagonal zero), and the geodesic matrix computed from this
fully connected graph equals `D` exactly: by the triangle inequality of a
Euclidean distance matrix no multi-edge walk beats the direct edge. -/
theorem knn_full_graph_geodesics {n : ℕ} (D : Fin n → Fin n → ℚ)
    (hsymm : ∀ i j, D i j = D j i) (hdiag : ∀ i, D i i = 0)
    (hnn : ∀ i j, 0 ≤ D i j)
    (htri : ∀ i k j, D i j ≤ D i k + D k j) (k : ℕ) (hk : n - 1 ≤ k) :
    (∀ i j, build_neighborhood_graph D k none i j = (D i j : WithTop ℚ)) ∧
    (∀ i j, floyd_warshall (build_neighborhood_graph D k none) i j
      = (D i j : WithTop ℚ)) := by
  have hbd := build_full_eq_D D hsymm hdiag hnn k hk
  refine ⟨hbd, ?_⟩
  have hbe : build_neighborhood_graph D k none = fun i j => (D i j : WithTop ℚ) :=
    funext fun i => funext fun j => hbd i j
  rw [hbe]
  have htop : ∀ i k2 j : Fin n,
      ((D i j : ℚ) : WithTop ℚ) ≤ ((D i k2 : ℚ) : WithTop ℚ) + ((D k2 j : ℚ) : WithTop ℚ) := by
    intro i k2 j
    rw [← WithTop.coe_add]
    exact WithTop.coe_le_coe.mpr (htri i k2 j)
  intro i j
  rw [floyd_warshall_of_triangle _ htop]

/-- Witness for C3 at `Dzero2` with `n_neighbors = 1 = N - 1`. -/
theorem knn_full_graph_geodesics_witness :
    (∀ i j, build_neighborhood_graph Dzero2 1 none i j = (Dzero2 i j : WithTop ℚ)) ∧
    (∀ i j, floyd_warshall (build_neighborhood_graph Dzero2 1 none) i j
      = (Dzero2 i j : WithTop ℚ)) :=
  knn_full_graph_geodesics Dzero2 (fun _ _ => rfl) (fun _ => rfl)
    (fun _ _ => le_refl 0) (fun i k j => by simp [Dzero2]) 1 (by decide)

lemma countP_perm_finRange_card {n : ℕ} (s : List (Fin n))
    (hperm : List.Perm s (List.finRange n)) (p : Fin n → Prop) [DecidablePred p] :
    s.countP (fun x => decide (p x)) = (Finset.univ.filter p).card := by
  rw [hperm.countP_eq, List.countP_eq_length_filter,
    ← List.toFinset_card_of_nodup ((List.nodup_finRange n).filter _)]
  congr 1
  ext x
  simp [List.mem_filter]

/-- C2 counterexample: on `Ddup` with `n_neighbors = 1`, the unique nearest
other sample of row 1 is sample 0 (`D[1,0] = 0 < 5 = D[1,2]`), yet the
directed k-NN selection of row 1 is `[1]` — the self index — so no directed
edge `1 → 0` is created, the self-distance is not excluded, and row 1 has
no finite-weight directed neighbour other than itself.  (`np.argsort` on a
3-element array is numpy insertion sort, which is stable, so the model
matches the source here: positions of the two zeros of row `[0, 0, 5]` are
`[0, 1]`, and `idx[1:2] = [1]`.) -/
theorem knn_select_counterexample :
    (∀ x : Fin 3, x ≠ 1 → x ≠ 0 → Ddup 1 0 < Ddup 1 x) ∧
    knnSelect Ddup 1 1 = [1] ∧
    directedGraph Ddup 1 none 1 0 = ⊤ ∧
    (Finset.univ.filter
      (fun j => j ≠ 1 ∧ directedGraph Ddup 1 none 1 j ≠ ⊤)).card = 0 := by
  decide

/-- C2 amended: provided the distance matrix has a zero diagonal, strictly
positive off-diagonal entries (pairwise distinct samples) and, within each
row, pairwise distinct off-diagonal distances (no ties — `np.argsort` with
its default unstable sort leaves the order of tied entries unspecified, so
the tie-breaking clause of the original claim is not guaranteed by the
program), the k-NN selection of row `i` consists of exactly those `j ≠ i`
whose rank among the other samples by distance is below `n_neighbors`;
the self index is excluded; each selected neighbour gets the exact
distance as directed weight; with `N > n_neighbors` every node has at
least `n_neighbors` finite-weight directed neighbours other than itself;
and every finite entry of the symmetrised graph equals the underlying
distance exactly.  Under the no-ties hypothesis each row is injective, so
every correct sort of the row produces the same index order and the
stable model coincides with the program for every `N`. -/
theorem knn_select_amended {n : ℕ} (D : Fin n → Fin n → ℚ)
    (hsymm : ∀ i j, D i j = D j i) (hdiag : ∀ i, D i i = 0)
    (hpos : ∀ i j, j ≠ i → 0 < D i j)
    (hties : ∀ i x y, x ≠ i → y ≠ i → x ≠ y → D i x ≠ D i y)
    (k : ℕ) (hk : k < n) :
    (∀ i j, j ≠ i → (j ∈ knnSelect D i k ↔ strictNearerCount D i j < k)) ∧
    (∀ i, i ∉ knnSelect D i k) ∧
    (∀ i j, j ∈ knnSelect D i k → directedGraph D k none i j = (D i j : WithTop ℚ)) ∧
    (∀ i, k ≤ (Finset.univ.filter
        (fun j => j ≠ i ∧ directedGraph D k none i j ≠ ⊤)).card) ∧
    (∀ i j, build_neighborhood_graph D k none i j ≠ ⊤ →
        build_neighborhood_graph D k none i j = (D i j : WithTop ℚ)) := by
  have hsetup : ∀ i : Fin n, ∃ t, argsort (D i) = i :: t :=
    fun i => argsort_head_self D i (hdiag i) (hpos i)
  have hsel3 : ∀ i j : Fin n, j ∈ knnSelect D i k →
      directedGraph D k none i j = (D i j : WithTop ℚ) := by
    intro i j hin
    unfold directedGraph
    simp [hin]
  have hsel2 : ∀ i : Fin n, i ∉ knnSelect D i k := by
    intro i hin
    obtain ⟨t, hs⟩ := hsetup i
    have hsel : knnSelect D i k = t.take k := by
      unfold knnSelect
      rw [hs]
      rfl
    rw [hsel] at hin
    have hit : i ∈ t := List.mem_of_mem_take hin
    exact (argsort_tail_mem (D i) i t hs i).mp hit rfl
  refine ⟨?_, hsel2, hsel3, ?_, ?_⟩
  · -- selection is exactly rank < k
    intro i j hne
    obtain ⟨t, hs⟩ := hsetup i
    have hsel : knnSelect D i k = t.take k := by
      unfold knnSelect
      rw [hs]
      rfl
    have hsort : List.Sorted (keyLE (D i)) (i :: t) := by
      have := argsort_sorted (D i)
      rwa [hs] at this
    have hnd : (i :: t).Nodup := by
      have := argsort_nodup (D i)
      rwa [hs] at this
    have hjt : j ∈ t := (argsort_tail_mem (D i) i t hs j).mpr hne
    have hmem := mem_take_iff_countP (D i) t hsort.of_cons (List.nodup_cons.mp hnd).2
      k j hjt
    have hki : keyLT (D i) i j := Or.inl (by rw [hdiag i]; exact hpos i j hne)
    have hcons : (i :: t).countP (fun x => decide (keyLT (D i) x j))
        = t.countP (fun x => decide (keyLT (D i) x j)) + 1 := by
      rw [List.countP_cons]
      simp [hki]
    have hperm : List.Perm (i :: t) (List.finRange n) := by
      rw [← hs]
      exact argsort_perm (D i)
    have hcard : (i :: t).countP (fun x => decide (keyLT (D i) x j))
        = (Finset.univ.filter (fun x => keyLT (D i) x j)).card :=
      countP_perm_finRange_card (i :: t) hperm _
    have hinsert : Finset.univ.filter (fun x => keyLT (D i) x j)
        = insert i (Finset.univ.filter (fun x => x ≠ i ∧ keyLT (D i) x j)) := by
      ext x
      simp only [Finset.mem_filter, Finset.mem_univ, true_and, Finset.mem_insert]
      constructor
      · intro hx
        by_cases hxi : x = i
        · exact Or.inl hxi
        · exact Or.inr ⟨hxi, hx⟩
      · rintro (he | ⟨_, hx⟩)
        · exact he ▸ hki
        · exact hx
    have hnotmem : i ∉ Finset.univ.filter (fun x => x ≠ i ∧ keyLT (D i) x j) := by
      simp
    have hcount : (Finset.univ.filter (fun x => keyLT (D i) x j)).card
        = nearerCount D i j + 1 := by
      rw [hinsert, Finset.card_insert_of_not_mem hnotmem]
      rfl
    have hstrict : nearerCount D i j = strictNearerCount D i j := by
      unfold nearerCount strictNearerCount
      congr 1
      apply Finset.filter_congr
      intro x _
      constructor
      · rintro ⟨hxi, hlt | ⟨heq, hidx⟩⟩
        · exact ⟨hxi, hlt⟩
        · exact absurd heq (hties i x j hxi hne (ne_of_lt hidx))
      · rintro ⟨hxi, hlt⟩
        exact ⟨hxi, Or.inl hlt⟩
    rw [hsel]
    rw [hmem]
    omega
  · -- at least k finite directed neighbours
    intro i
    obtain ⟨t, hs⟩ := hsetup i
    have hsel : knnSelect D i k = t.take k := by
      unfold knnSelect
      rw [hs]
      rfl
    have hnd : (i :: t).Nodup := by
      have := argsort_nodup (D i)
      rwa [hs] at this
    have hndt : (t.take k).Nodup :=
      ((List.nodup_cons.mp hnd).2).sublist (List.take_sublist k t)
    have htlen : t.length = n - 1 := by
      have := argsort_length (D i)
      rw [hs] at this
      simp at this
      omega
    have hlen : (t.take k).length = k := by
      rw [List.length_take, htlen]
      omega
    have hsub : (knnSelect D i k).toFinset
        ⊆ Finset.univ.filter (fun j => j ≠ i ∧ directedGraph D k none i j ≠ ⊤) := by
      intro x hx
      have hxsel : x ∈ knnSelect D i k := List.mem_toFinset.mp hx
      have hxne : x ≠ i := by
        intro he
        exact hsel2 i (he ▸ hxsel)
      refine Finset.mem_filter.mpr ⟨Finset.mem_univ x, hxne, ?_⟩
      rw [hsel3 i x hxsel]
      exact WithTop.coe_ne_top
    have hcardsel : (knnSelect D i k).toFinset.card = k := by
      rw [hsel, List.toFinset_card_of_nodup hndt, hlen]
    calc k = (knnSelect D i k).toFinset.card := hcardsel.symm
      _ ≤ _ := Finset.card_le_card hsub
  · -- finite symmetrised entries are exact distances
    have hdirx : ∀ i j : Fin n, directedGraph D k none i j = (D i j : WithTop ℚ)
        ∨ directedGraph D k none i j = ⊤ := by
      intro i j
      by_cases hin : j ∈ knnSelect D i k
      · exact Or.inl (hsel3 i j hin)
      · by_cases hij : i = j
        · left
          subst hij
          unfold directedGraph
          simp [hin, hdiag i]
        · right
          unfold directedGraph
          simp [hin, hij]
    intro i j hne
    unfold build_neighborhood_graph at hne ⊢
    rcases hdirx i j with h1 | h1 <;> rcases hdirx j i with h2 | h2
    · rw [h1, h2, hsymm j i, min_self]
    · rw [h1, h2, min_eq_left le_top]
    · rw [h1, h2, min_eq_right le_top, hsymm j i]
    · rw [h1, h2, min_self] at hne
      exact absurd rfl hne

/-- Witness for the amended C2 at `Done2` with `n_neighbors = 1`. -/
theorem knn_select_amended_witness :
    (∀ i j, j ≠ i → (j ∈ knnSelect Done2 i 1 ↔ strictNearerCount Done2 i j < 1)) ∧
    (∀ i, i ∉ knnSelect Done2 i 1) ∧
    (∀ i j, j ∈ knnSelect Done2 i 1 →
        directedGraph Done2 1 none i j = (Done2 i j : WithTop ℚ)) ∧
    (∀ i, 1 ≤ (Finset.univ.filter
        (fun j => j ≠ i ∧ directedGraph Done2 1 none i j ≠ ⊤)).card) ∧
    (∀ i j, build_neighborhood_graph Done2 1 none i j ≠ ⊤ →
        build_neighborhood_graph Done2 1 none i j = (Done2 i j : WithTop ℚ)) :=
  knn_select_amended Done2 (by decide) (by decide) (by decide) (by decide) 1 (by decide)

/-- C7: for a symmetric distance matrix with zero diagonal, in radius mode
an edge `(i, j)` exists with weight `D i j` exactly when `i ≠ j` and
`D i j ≤ radius`; in both modes the final weight of a pair is the minimum
of the two directed weights (so a single direction survives alone and two
missing directions stay a non-edge), and the returned graph is symmetric. -/
theorem radius_mode_and_symmetrization {n : ℕ} (D : Fin n → Fin n → ℚ)
    (hsymm : ∀ i j, D i j = D j i) (_hdiag : ∀ i, D i i = 0) (r : ℚ) (k : ℕ)
    (radius : Option ℚ) :
    (∀ i j, i ≠ j →
      ((build_neighborhood_graph D k (some r) i j ≠ ⊤ ↔ D i j ≤ r) ∧
       (D i j ≤ r → build_neighborhood_graph D k (some r) i j = (D i j : WithTop ℚ)))) ∧
    (∀ i j, build_neighborhood_graph D k radius i j
        = min (directedGraph D k radius i j) (directedGraph D k radius j i)) ∧
    (∀ i j, build_neighborhood_graph D k radius i j
        = build_neighborhood_graph D k radius j i) ∧
    (∀ i j, directedGraph D k radius i j = ⊤ →
        build_neighborhood_graph D k radius i j = directedGraph D k radius j i) ∧
    (∀ i j, directedGraph D k radius i j = ⊤ → directedGraph D k radius j i = ⊤ →
        build_neighborhood_graph D k radius i j = ⊤) := by
  refine ⟨?_, fun i j => rfl, ?_, ?_, ?_⟩
  · intro i j hne
    have hd1 : directedGraph D k (some r) i j
        = if D i j ≤ r then ((D i j : ℚ) : WithTop ℚ) else ⊤ := by
      unfold directedGraph
      by_cases hr : D i j ≤ r
      · simp [hne, hr]
      · simp [hne, hr]
    have hd2 : directedGraph D k (some r) j i
        = if D i j ≤ r then ((D i j : ℚ) : WithTop ℚ) else ⊤ := by
      unfold directedGraph
      rw [hsymm j i]
      by_cases hr : D i j ≤ r
      · simp [Ne.symm hne, hr]
      · simp [Ne.symm hne, hr]
    have hb : build_neighborhood_graph D k (some r) i j
        = if D i j ≤ r then ((D i j : ℚ) : WithTop ℚ) else ⊤ := by
      unfold build_neighborhood_graph
      rw [hd1, hd2, min_self]
    constructor
    · rw [hb]
      by_cases hr : D i j ≤ r
      · simp [hr]
      · simp [hr]
    · intro hr
      rw [hb, if_pos hr]
  · intro i j
    unfold build_neighborhood_graph
    exact min_comm _ _
  · intro i j htop
    unfold build_neighborhood_graph
    rw [htop]
    exact min_eq_right le_top
  · intro i j h1 h2
    unfold build_neighborhood_graph
    rw [h1, h2, min_self]

/-- Witness for C7 at `Done2`, `radius = 1`, `n_neighbors = 7`. -/
theorem radius_mode_and_symmetrization_witness :
    (∀ i j, i ≠ j →
      ((build_neighborhood_graph Done2 7 (some 1) i j ≠ ⊤ ↔ Done2 i j ≤ 1) ∧
       (Done2 i j ≤ 1 →
         build_neighborhood_graph Done2 7 (some 1) i j = (Done2 i j : WithTop ℚ)))) ∧
    (∀ i j, build_neighborhood_graph Done2 7 none i j
        = min (directedGraph Done2 7 none i j) (directedGraph Done2 7 none j i)) ∧
    (∀ i j, build_neighborhood_graph Done2 7 none i j
        = build_neighborhood_graph Done2 7 none j i) ∧
    (∀ i j, directedGraph Done2 7 none i j = ⊤ →
        build_neighborhood_graph Done2 7 none i j = directedGraph Done2 7 none j i) ∧
    (∀ i j, directedGraph Done2 7 none i j = ⊤ → directedGraph Done2 7 none j i = ⊤ →
        build_neighborhood_graph Done2 7 none i j = ⊤) :=
  radius_mode_and_symmetrization Done2 (by decide) (by decide) 1 7 none

lemma relax_preserves {n : ℕ} (Dm : Fin n → Fin n → WithTop ℚ) (k : Fin n)
    (h : SymNonnegDiag Dm) : SymNonnegDiag (relax Dm k) := by
  obtain ⟨hnn, hdiag, hsymm⟩ := h
  refine ⟨?_, ?_, ?_⟩
  · intro i j
    exact le_min (hnn i j) (add_nonneg (hnn i k) (hnn k j))
  · intro i
    unfold relax
    rw [hdiag i]
    exact min_eq_left (add_nonneg (hnn i k) (hnn k i))
  · intro i j
    unfold relax
    rw [hsymm i j, hsymm i k, hsymm k j, add_comm]

lemma foldl_relax_preserves {n : ℕ} :
    ∀ (l : List (Fin n)) (Dm : Fin n → Fin n → WithTop ℚ),
      SymNonnegDiag Dm → SymNonnegDiag (l.foldl relax Dm) := by
  intro l
  induction l with
  | nil => intro Dm h; exact h
  | cons a l2 ih =>
    intro Dm h
    rw [List.foldl_cons]
    exact ih (relax Dm a) (relax_preserves Dm a h)

lemma floyd_warshall_preserves {n : ℕ} (G : Fin n → Fin n → WithTop ℚ)
    (h : SymNonnegDiag G) : SymNonnegDiag (floyd_warshall G) :=
  foldl_relax_preserves (List.finRange n) G h

lemma pairwise_diag_zero {n d2 : ℕ} (sqrtF : ℚ → ℚ) (hs0 : sqrtF 0 = 0)
    (X : Fin n → Fin d2 → ℚ) (i : Fin n) : pairwise_distances sqrtF X i i = 0 := by
  unfold pairwise_distances
  have harg : (∑ t, X i t * X i t) + (∑ t, X i t * X i t) - 2 * ∑ t, X i t * X i t
      = 0 := by ring
  rw [harg, max_self, hs0]

lemma pairwise_symm {n d2 : ℕ} (sqrtF : ℚ → ℚ) (X : Fin n → Fin d2 → ℚ)
    (i j : Fin n) : pairwise_distances sqrtF X i j = pairwise_distances sqrtF X j i := by
  unfold pairwise_distances
  have hdot : (∑ t, X i t * X j t) = ∑ t, X j t * X i t :=
    Finset.sum_congr rfl (fun t _ => mul_comm _ _)
  congr 2
  rw [hdot]
  ring

lemma pairwise_nonneg {n d2 : ℕ} (sqrtF : ℚ → ℚ) (hsnn : ∀ q, 0 ≤ q → 0 ≤ sqrtF q)
    (X : Fin n → Fin d2 → ℚ) (i j : Fin n) : 0 ≤ pairwise_distances sqrtF X i j := by
  unfold pairwise_distances
  exact hsnn _ (le_max_right _ _)

lemma build_symNonnegDiag {n : ℕ} (D : Fin n → Fin n → ℚ)
    (hdiag : ∀ i, D i i = 0) (hnn : ∀ i j, 0 ≤ D i j) (k : ℕ) (radius : Option ℚ) :
    SymNonnegDiag (build_neighborhood_graph D k radius) := by
  have hdirnn : ∀ i j, 0 ≤ directedGraph D k radius i j := by
    intro i j
    unfold directedGraph
    rcases radius with _ | r
    · dsimp only
      split_ifs with h1 h2
      · exact_mod_cast hnn i j
      · exact le_refl _
      · exact le_top
    · dsimp only
      split_ifs with h1 h2
      · exact_mod_cast hnn i j
      · exact le_refl _
      · exact le_top
  have hdirdiag : ∀ i, directedGraph D k radius i i = 0 := by
    intro i
    unfold directedGraph
    match radius with
    | some r => simp
    | none =>
      by_cases hc : i ∈ knnSelect D i k
      · simp [hc, hdiag i]
      · simp [hc]
  refine ⟨?_, ?_, ?_⟩
  · intro i j
    exact le_min (hdirnn i j) (hdirnn j i)
  · intro i
    unfold build_neighborhood_graph
    rw [hdirdiag i, min_self]
  · intro i j
    unfold build_neighborhood_graph
    exact min_comm _ _

/-- C8: for every input `X`, the derived matrices of the pipeline chain are
symmetric with zero diagonal: the distance matrix built by
`pairwise_distances` (given that the external square root sends `0` to `0`
and non-negatives to non-negatives, as `np.sqrt` does), the neighbourhood
graph in either mode, and the geodesic matrix `floyd_warshall` computes
from that symmetric zero-diagonal graph. -/
theorem pipeline_symmetric_zero_diag {n d2 : ℕ} (sqrtF : ℚ → ℚ)
    (hs0 : sqrtF 0 = 0) (hsnn : ∀ q, 0 ≤ q → 0 ≤ sqrtF q)
    (X : Fin n → Fin d2 → ℚ) (k : ℕ) (radius : Option ℚ) :
    (∀ i, pairwise_distances sqrtF X i i = 0) ∧
    (∀ i j, pairwise_distances sqrtF X i j = pairwise_distances sqrtF X j i) ∧
    (∀ i, build_neighborhood_graph (pairwise_distances sqrtF X) k radius i i = 0) ∧
    (∀ i j, build_neighborhood_graph (pairwise_distances sqrtF X) k radius i j
        = build_neighborhood_graph (pairwise_distances sqrtF X) k radius j i) ∧
    (∀ i, floyd_warshall
        (build_neighborhood_graph (pairwise_distances sqrtF X) k radius) i i = 0) ∧
    (∀ i j, floyd_warshall
        (build_neighborhood_graph (pairwise_distances sqrtF X) k radius) i j
      = floyd_warshall
        (build_neighborhood_graph (pairwise_distances sqrtF X) k radius) j i) := by
  have hbuild := build_symNonnegDiag (pairwise_distances sqrtF X)
    (pairwise_diag_zero sqrtF hs0 X) (pairwise_nonneg sqrtF hsnn X) k radius
  have hfw := floyd_warshall_preserves _ hbuild
  exact ⟨pairwise_diag_zero sqrtF hs0 X, pairwise_symm sqrtF X,
    hbuild.2.1, hbuild.2.2, hfw.2.1, hfw.2.2⟩

/-- Witness for C8: the exact square root on the all-zero sample matrix is
modelled by the identity function, which fixes `0` and preserves
non-negativity. -/
theorem pipeline_symmetric_zero_diag_witness :
    (∀ i, pairwise_distances id Xzero1 i i = 0) ∧
    (∀ i j, pairwise_distances id Xzero1 i j = pairwise_distances id Xzero1 j i) ∧
    (∀ i, build_neighborhood_graph (pairwise_distances id Xzero1) 1 none i i = 0) ∧
    (∀ i j, build_neighborhood_graph (pairwise_distances id Xzero1) 1 none i j
        = build_neighborhood_graph (pairwise_distances id Xzero1) 1 none j i) ∧
    (∀ i, floyd_warshall
        (build_neighborhood_graph (pairwise_distances id Xzero1) 1 none) i i = 0) ∧
    (∀ i j, floyd_warshall
        (build_neighborhood_graph (pairwise_distances id Xzero1) 1 none) i j
      = floyd_warshall
        (build_neighborhood_graph (pairwise_distances id Xzero1) 1 none) j i) :=
  pipeline_symmetric_zero_diag id rfl (fun _ h => h) Xzero1 1 none

/-- C4: the function `check_connectivity` yields the Boolean verdict together with the
reported count of nodes reached from the fixed start node `0`, the verdict
being true exactly when the count is the full node count (the function
only reads `G` and never raises: in this embedding it is a total function
of `G` alone); and on a graph with no finite off-diagonal entries the
reported count is exactly `1`: only the start node is reached. -/
theorem check_connectivity_correct {n : ℕ} :
    (∀ G : Fin (n + 1) → Fin (n + 1) → WithTop ℚ,
      ((check_connectivity G).1 = true ↔ (check_connectivity G).2 = n + 1)) ∧
    (∀ G : Fin (n + 1) → Fin (n + 1) → WithTop ℚ,
      (∀ i j, i ≠ j → G i j = ⊤) → (check_connectivity G).2 = 1) := by
  constructor
  · intro G
    unfold check_connectivity
    simp
  · intro G hoff
    unfold check_connectivity
    have hnf : newFrontier G ({0} : Finset (Fin (n + 1))) 0 = [] := by
      unfold newFrontier
      rw [List.filter_eq_nil_iff]
      intro j _
      by_cases hj : j = (0 : Fin (n + 1))
      · subst hj
        simp
      · have := hoff 0 j (fun he => hj he.symm)
        simp [this]
    rw [dfsLoop, hnf]
    rw [show (([] : List (Fin (n + 1))).reverse ++ []) = [] from rfl]
    rw [dfsLoop]
    simp

/-- Witness for C4: the edgeless two-node graph `fwG2`; the checker reports
one reached node out of two, and its Boolean agrees with the count. -/
theorem check_connectivity_correct_witness :
    ((check_connectivity fwG2).1 = true ↔ (check_connectivity fwG2).2 = 2) ∧
    (check_connectivity fwG2).2 = 1 :=
  ⟨(check_connectivity_correct (n := 1)).1 fwG2,
    (check_connectivity_correct (n := 1)).2 fwG2 (by decide)⟩

lemma mdsIdx_length {n : ℕ} (vals : Fin n → ℚ) : (mdsIdx vals).length = n := by
  unfold mdsIdx
  rw [List.length_reverse, argsort_length]

lemma classical_mds_lengths {n : ℕ}
    (eighF : (Fin n → Fin n → WithTop ℚ) → (Fin n → ℚ) × (Fin n → Fin n → ℚ))
    (sqrtF : ℚ → ℚ) (Dg : Fin n → Fin n → WithTop ℚ) (k : ℕ) :
    ((classical_mds eighF sqrtF Dg k).1).length = min k n ∧
    ((classical_mds eighF sqrtF Dg k).2).length = n := by
  unfold classical_mds
  constructor
  · rw [List.length_map, List.length_take, mdsIdx_length]
  · rw [List.length_map, mdsIdx_length]

lemma mdsIdx_map_sorted {n : ℕ} (vals : Fin n → ℚ) :
    List.Sorted (fun a b => b ≤ a) ((mdsIdx vals).map vals) := by
  unfold mdsIdx
  rw [List.map_reverse]
  rw [List.Sorted, List.pairwise_reverse]
  refine (argsort_sorted vals).map vals ?_
  intro a b hab
  rcases hab with h | ⟨h, _⟩
  · exact le_of_lt h
  · exact le_of_eq h

lemma map_eq_zipWith_map {α β γ : Type} (F : α → β → γ) (g : α → β) (l : List α) :
    l.map (fun c => F c (g c)) = List.zipWith F l (l.map g) := by
  induction l with
  | nil => rfl
  | cons a t ih => simp [ih]

/-- C6: for every input matrix and every `n_components ≤ N`,
`classical_mds` returns the full eigenvalue spectrum (length `N`) sorted
in descending order, and the embedding consists of exactly `n_components`
columns, the `c`-th column being the eigenvector selected for the `c`-th
returned eigenvalue scaled by the square root of that eigenvalue clamped
at `0`. -/
theorem classical_mds_spec {n : ℕ}
    (eighF : (Fin n → Fin n → WithTop ℚ) → (Fin n → ℚ) × (Fin n → Fin n → ℚ))
    (sqrtF : ℚ → ℚ) (Dg : Fin n → Fin n → WithTop ℚ) (k : ℕ) (hk : k ≤ n) :
    ((classical_mds eighF sqrtF Dg k).2).length = n ∧
    List.Sorted (fun a b => b ≤ a) ((classical_mds eighF sqrtF Dg k).2) ∧
    ((classical_mds eighF sqrtF Dg k).1).length = k ∧
    (classical_mds eighF sqrtF Dg k).1
      = List.zipWith
          (fun c lam => fun r => (eighF (gramB Dg)).2 r c * sqrtF (max lam 0))
          ((mdsIdx (eighF (gramB Dg)).1).take k)
          (((classical_mds eighF sqrtF Dg k).2).take k) := by
  refine ⟨(classical_mds_lengths eighF sqrtF Dg k).2, ?_, ?_, ?_⟩
  · exact mdsIdx_map_sorted (eighF (gramB Dg)).1
  · rw [(classical_mds_lengths eighF sqrtF Dg k).1]
    omega
  · show ((mdsIdx (eighF (gramB Dg)).1).take k).map _ = _
    rw [show ((classical_mds eighF sqrtF Dg k).2)
        = (mdsIdx (eighF (gramB Dg)).1).map (eighF (gramB Dg)).1 from rfl]
    rw [← List.map_take]
    exact map_eq_zipWith_map
      (fun c lam => fun r => (eighF (gramB Dg)).2 r c * sqrtF (max lam 0))
      (eighF (gramB Dg)).1 ((mdsIdx (eighF (gramB Dg)).1).take k)

/-- Witness for C6 at the one-node instance with `n_components = 1`. -/
theorem classical_mds_spec_witness :
    ((classical_mds eighEx1 id (fun _ _ => 0) 1).2).length = 1 ∧
    List.Sorted (fun a b => b ≤ a) ((classical_mds eighEx1 id (fun _ _ => 0) 1).2) ∧
    ((classical_mds eighEx1 id (fun _ _ => 0) 1).1).length = 1 ∧
    (classical_mds eighEx1 id (fun _ _ => 0) 1).1
      = List.zipWith
          (fun c lam => fun r => (eighEx1 (gramB (fun _ _ => 0))).2 r c * id (max lam 0))
          ((mdsIdx (eighEx1 (gramB (fun _ _ => 0))).1).take 1)
          (((classical_mds eighEx1 id (fun _ _ => 0) 1).2).take 1) :=
  classical_mds_spec eighEx1 id (fun _ _ => 0) 1 (le_refl 1)

/-- C10: calling `classical_mds` with `n_components > N` raises no error:
the slices silently truncate at `N`, so the embedding has only `N`
columns, and the full `N` eigenvalues are still returned. -/
theorem classical_mds_overflow {n : ℕ}
    (eighF : (Fin n → Fin n → WithTop ℚ) → (Fin n → ℚ) × (Fin n → Fin n → ℚ))
    (sqrtF : ℚ → ℚ) (Dg : Fin n → Fin n → WithTop ℚ) (k : ℕ) (hk : n < k) :
    ((classical_mds eighF sqrtF Dg k).1).length = n ∧
    ((classical_mds eighF sqrtF Dg k).2).length = n := by
  refine ⟨?_, (classical_mds_lengths eighF sqrtF Dg k).2⟩
  rw [(classical_mds_lengths eighF sqrtF Dg k).1]
  omega

/-- Witness for C10: one sample, `n_components = 2`: the embedding has one
column, not two. -/
theorem classical_mds_overflow_witness :
    ((classical_mds eighEx1 id (fun _ _ => 0) 2).1).length = 1 ∧
    ((classical_mds eighEx1 id (fun _ _ => 0) 2).2).length = 1 :=
  classical_mds_overflow eighEx1 id (fun _ _ => 0) 2 (by decide)

/-- C5 counterexample: with `N = 1` sample and `n_components = 2 > N` the
pipeline does not report a configuration error and the stages are not
skipped: the invocation returns the completed classical-MDS output of the
geodesic matrix (a one-column embedding, one eigenvalue) instead of
refusing to run. -/
theorem isomap_no_validation_counterexample :
    isomap eighEx1 id Xzero1 7 2 none
      = classical_mds eighEx1 id
          (floyd_warshall
            (build_neighborhood_graph (pairwise_distances id Xzero1) 7 none)) 2 ∧
    ((isomap eighEx1 id Xzero1 7 2 none).1).length = 1 ∧
    ((isomap eighEx1 id Xzero1 7 2 none).2).length = 1 := by
  refine ⟨rfl, ?_, ?_⟩
  · exact ((classical_mds_lengths eighEx1 id _ 2).1).trans (by decide)
  · exact (classical_mds_lengths eighEx1 id _ 2).2

/-- C5 amended: the function `isomap` performs no validation of `n_components`; for any
`n_components > N` the pipeline still runs every stage in order — the
result is exactly the classical-MDS output of the geodesic matrix of the
neighbourhood graph of the distance matrix — and the embedding comes back
silently truncated to `N` columns with the `N` eigenvalues. -/
theorem isomap_no_validation {n d2 : ℕ}
    (eighF : (Fin n → Fin n → WithTop ℚ) → (Fin n → ℚ) × (Fin n → Fin n → ℚ))
    (sqrtF : ℚ → ℚ) (X : Fin n → Fin d2 → ℚ) (nb k : ℕ) (radius : Option ℚ)
    (hk : n < k) :
    isomap eighF sqrtF X nb k radius
      = classical_mds eighF sqrtF
          (floyd_warshall
            (build_neighborhood_graph (pairwise_distances sqrtF X) nb radius)) k ∧
    ((isomap eighF sqrtF X nb k radius).1).length = n ∧
    ((isomap eighF sqrtF X nb k radius).2).length = n := by
  refine ⟨rfl, ?_, ?_⟩
  · rw [show (isomap eighF sqrtF X nb k radius).1
        = (classical_mds eighF sqrtF
            (floyd_warshall
              (build_neighborhood_graph (pairwise_distances sqrtF X) nb radius)) k).1
      from rfl]
    rw [(classical_mds_lengths eighF sqrtF _ k).1]
    omega
  · exact (classical_mds_lengths eighF sqrtF _ k).2

/-- Witness for the amended C5: the concrete one-sample instance with
`n_components = 2`. -/
theorem isomap_no_validation_witness :
    isomap eighEx1 id Xzero1 7 2 none
      = classical_mds eighEx1 id
          (floyd_warshall
            (build_neighborhood_graph (pairwise_distances id Xzero1) 7 none)) 2 ∧
    ((isomap eighEx1 id Xzero1 7 2 none).1).length = 1 ∧
    ((isomap eighEx1 id Xzero1 7 2 none).2).length = 1 :=
  isomap_no_validation eighEx1 id Xzero1 7 2 none (by decide)

/-- C9: the orchestrator is pure sequencing with no hidden state: two
invocations with identical input matrix, identical configuration and
pointwise identical external numerical routines (square root and
eigensolver) return identical embeddings and identical spectra. -/
theorem isomap_deterministic {n d2 : ℕ}
    (e1 e2 : (Fin n → Fin n → WithTop ℚ) → (Fin n → ℚ) × (Fin n → Fin n → ℚ))
    (s1 s2 : ℚ → ℚ) (X : Fin n → Fin d2 → ℚ) (nb k : ℕ) (radius : Option ℚ)
    (he : ∀ B, e1 B = e2 B) (hs : ∀ q, s1 q = s2 q) :
    isomap e1 s1 X nb k radius = isomap e2 s2 X nb k radius := by
  rw [funext he, funext hs]

/-- Witness for C9 at the concrete one-sample instance. -/
theorem isomap_deterministic_witness :
    isomap eighEx1 id Xzero1 7 2 none = isomap eighEx1 id Xzero1 7 2 none :=
  isomap_deterministic eighEx1 eighEx1 id id Xzero1 7 2 none
    (fun _ => rfl) (fun _ => rfl)
